import Mathlib

set_option maxRecDepth 100000

/-!
Shallow embedding of the fastdict repository's distance kernels, dispatch
wrappers, streaming-protocol receiver, LSH query ranking and server accept
loop, together with theorems settling the frozen claims about them.

Machine `uint64` values are modelled as `Nat` with explicit `% 2 ^ 64`
wherever the C source can overflow.  Fallible Python code is modelled with
`Except`/`Option`.
-/

/-! ### Reference population count

A reference bit-counting routine, independent of the kernel's masked
pipeline.  Defined with structural fuel so that it evaluates by `decide`. -/

def pcAux : Nat → Nat → Nat
  | 0, _ => 0
  | _ + 1, 0 => 0
  | fuel + 1, n + 1 => (n + 1) % 2 + pcAux fuel ((n + 1) / 2)

/-- Number of set bits of a natural number (reference definition). -/
def popcountNat (n : Nat) : Nat := pcAux n n

/-! ### The masked-add-reduce population count of `cuda_hamming.py`

Constants and pipeline from the CUDA source embedded in
`CudaHamming.__init__` (both kernels use the identical popcount sequence;
`m8`, `m16`, `m32`, `hff` are declared in the source but unused). -/

def m1 : Nat := 0x5555555555555555
def m2 : Nat := 0x3333333333333333
def m4 : Nat := 0x0f0f0f0f0f0f0f0f
def m8 : Nat := 0x00ff00ff00ff00ff
def m16 : Nat := 0x0000ffff0000ffff
def m32 : Nat := 0x00000000ffffffff
def hff : Nat := 0xffffffffffffffff
def h01 : Nat := 0x0101010101010101

/-- The kernel sequence `xor_r -= (xor_r >> 1) & m1; xor_r = (xor_r & m2)
+ ((xor_r >> 2) & m2); xor_r = (xor_r + (xor_r >> 4)) & m4;
(xor_r * h01) >> 56` — the exact 64-bit arithmetic of both kernels.  The first subtraction cannot wrap
(`(x >>> 1) &&& m1 ≤ x`); every possibly-wrapping operation carries an
explicit `% 2 ^ 64`. -/
def popc64 (x : Nat) : Nat :=
  let x1 := x - ((x >>> 1) &&& m1)
  let x2 := ((x1 &&& m2) + ((x1 >>> 2) &&& m2)) % 2 ^ 64
  let x3 := ((x2 + (x2 >>> 4)) % 2 ^ 64) &&& m4
  ((x3 * h01) % 2 ^ 64) >>> 56

/-! ### Thread reachability

`const uint64_t i = gridDim.x * blockDim.x * blockIdx.y
                    + blockIdx.x * blockDim.x + threadIdx.x;`
An index is written only if some launched thread has this id.  The default
configuration of `CudaHamming.__init__` is `block = (500, 1, 1)`,
`grid = (2, 1)`. -/

def reachable (blockX gridX gridY i : Nat) : Bool :=
  (List.range gridY).any fun bY =>
    (List.range gridX).any fun bX =>
      (List.range blockX).any fun tX =>
        decide (i = gridX * blockX * bY + bX * blockX + tX)

/-! ### Dense Hamming kernel and dispatch (`hamming_dist`, `cuda_hamming_dist`)

The dispatcher copies the input (`dest = numpy.array(vec_b)`), passes
`length = vec_b.shape[0]`, and the kernel overwrites `b[i]` with the
popcount of `a[0] ^ b[i]` for every launched thread id `i < length`;
all other cells keep the copied input value. -/

def hamming_dist (blockX gridX gridY : Nat) (a : Nat) (b : List Nat)
    (length : Nat) : List Nat :=
  (List.range b.length).map fun i =>
    if reachable blockX gridX gridY i = true ∧ i < length then
      popc64 (Nat.xor a (b.getD i 0))
    else b.getD i 0

def cuda_hamming_dist (blockX gridX gridY : Nat) (vec_a : Nat)
    (vec_b : List Nat) : List Nat :=
  hamming_dist blockX gridX gridY vec_a vec_b vec_b.length

/-! ### `multi_iteration`: chunked dispatch

`sections = range(0, vector_len, 10000000)[1:]; numpy.split(vec_b, sections)`
splits the code vector into pieces of at most 10,000,000 elements; the
results are concatenated. -/

def splitChunksAux : Nat → List Nat → List (List Nat)
  | 0, l => [l]
  | fuel + 1, l =>
    if l.length ≤ 10000000 then [l]
    else l.take 10000000 :: splitChunksAux fuel (l.drop 10000000)

def splitChunks (l : List Nat) : List (List Nat) := splitChunksAux l.length l

def multi_iteration (blockX gridX gridY : Nat) (vec_a : Nat)
    (vec_b : List Nat) : List Nat :=
  ((splitChunks vec_b).map (cuda_hamming_dist blockX gridX gridY vec_a)).flatten

/-! ### Compressed-domain kernel (`compressed_hamming_dist`)

Each thread `i` decodes batch indices `[100 * i, 100 * i + 100)`.  A column
is a run-length list; runs alternate bit value starting at 0, and the bit of
global index `idx` is the value of the run containing `idx`.  (Indices past
the runs' total are out-of-bounds reads in the C source; the model returns
bit 0 there.) -/

def runBit : List Nat → Bool → Nat → Bool
  | [], _, _ => false
  | r :: rest, t, idx => if idx < r then t else runBit rest (!t) (idx - r)

/-- Rebuilds `binary_codes[j] |= 1 << column_index` over every column
whose run at this index carries bit value one. -/
def decodeCodeAt (bit_counts : List (List Nat)) (idx : Nat) : Nat :=
  (List.range 64).foldl
    (fun acc c =>
      if runBit (bit_counts.getD c []) false idx then acc ||| (1 <<< c)
      else acc)
    0

/-- The loop `for (mask_count = 0; mask_count < base[0]; mask_count++)
mask = (mask << 1) | 0x01;` on `uint64_t`. -/
def kernelMask (base : Nat) : Nat :=
  (List.range base).foldl (fun m _ => ((m <<< 1) % 2 ^ 64) ||| 1) 0

/-- Output buffer after the kernel, given the caller's zero-initialised
`distances` of length `max_length`.  Global index `idx` is handled exactly
by thread `idx / 100` (`i_for_batch = i * 100`, `binary_code_index =
idx % 100`); the guard `binary_codes[...] > 0x00 || 1` in the source is
always true.  The computed `store_base = idx / base` is never used: the
quantized, shifted distance is OR-ed into `distances[idx]` itself. -/
def compressed_hamming_dist (blockX gridX gridY : Nat) (query : Nat)
    (bit_counts : List (List Nat)) (max_length base : Nat) : List Nat :=
  (List.range max_length).map fun idx =>
    if reachable blockX gridX gridY (idx / 100) = true then
      let binary_code := decodeCodeAt bit_counts idx
      let xor_r := Nat.xor query binary_code
      let mask := kernelMask base
      let distance := popc64 xor_r
      let distance := if distance > mask then mask else distance
      let offset := (base - 1) - idx % base
      distance <<< (offset * base)
    else 0

/-! ### Python wrapper `CudaHamming.cuda_hamming_dist_in_compressed_domain`

`binary_code_length = len(image_ids)` is immediately overwritten by the
constant `100`; `distances = numpy.zeros(binary_code_length)`;
`base = 4`; the kernel result is printed and the function body ends
without a `return` statement, so the call evaluates to `None`. -/

structure CompressedCall where
  binary_code_length : Nat
  distances0 : List Nat
  result : List Nat
  retval : Option (List Nat)

def cuda_hamming_dist_in_compressed_domain (blockX gridX gridY : Nat)
    (vec_a : Nat) (compressed_columns : List (List Nat))
    (image_ids : List Nat) : CompressedCall :=
  let binary_code_length := image_ids.length
  let binary_code_length := 100
  let distance_compress_base := 4
  let distances : List Nat := List.replicate binary_code_length 0
  { binary_code_length := binary_code_length
    distances0 := distances
    result := compressed_hamming_dist blockX gridX gridY vec_a
      compressed_columns binary_code_length distance_compress_base
    retval := none }

/-! ### Server side of the compressed-domain request

`cuda_hamming_server.py` invokes the wrapper as
`cuda_hamming_obj.cuda_hamming_dist_in_compressed_domain(vec_a,
reshape_columns_vector, image_ids, vlq_mode)` — four positional arguments
against the three-parameter signature above, a `TypeError` at call time. -/

def compressedWrapperParamCount : Nat := 3

def serverCompressedCallArgCount : Nat := 4

def call_cuda_hamming_dist_in_compressed_domain_compute
    (blockX gridX gridY : Nat) (vec_a : Nat) (cols : List (List Nat))
    (image_ids : List Nat) : Except String (List Nat) :=
  if serverCompressedCallArgCount = compressedWrapperParamCount then
    match (cuda_hamming_dist_in_compressed_domain blockX gridX gridY vec_a
        cols image_ids).retval with
    | some buf => Except.ok buf
    | none => Except.error "TypeError: NoneType has no element 0"
  else
    Except.error
      "TypeError: cuda_hamming_dist_in_compressed_domain() takes exactly 4 arguments (5 given)"

/-! ### Server side of the multi_iteration request

`multi_iteration` returns a plain 1-D distance array, but the server
indexes it as if it were a `(distances, time)` pair: `log_info` reads
`hamming_distances[1]` and `hamming_distances[0].shape[0]`; the element
`hamming_distances[0]` is a numpy scalar whose `shape` is the empty tuple,
so `shape[0]` raises `IndexError` before any reply is sent.  Afterwards the
code would send `hamming_distances[0].astype(numpy.uint8)` — a single
scalar — as the reply. -/

def npScalarShape : List Nat := []

def log_info (hamming_distances : List Nat) : Except String Unit :=
  match hamming_distances[1]? with
  | none => Except.error "IndexError: index 1 is out of bounds"
  | some _cuda_time =>
    match hamming_distances[0]? with
    | none => Except.error "IndexError: index 0 is out of bounds"
    | some _scalar =>
      match npScalarShape[0]? with
      | some _ => Except.ok ()
      | none => Except.error "IndexError: tuple index out of range"

def call_multi_iteration_compute (blockX gridX gridY : Nat) (vec_a : Nat)
    (binary_codes : List Nat) : Except String (List Nat) :=
  let hamming_distances := multi_iteration blockX gridX gridY vec_a binary_codes
  match log_info hamming_distances with
  | Except.error e => Except.error e
  | Except.ok _ =>
    match hamming_distances[0]? with
    | none => Except.error "IndexError: index 0 is out of bounds"
    | some d0 => Except.ok [d0 % 256]

/-! ### Streaming receiver

A TCP socket is modelled as the queue of byte segments the peer's writes
arrive in; `recv n` returns at most `n` bytes from the first pending
segment (an empty result means the peer closed the connection). -/

def pyRecv (segs : List (List Nat)) (n : Nat) : List Nat × List (List Nat) :=
  match segs with
  | [] => ([], [])
  | seg :: rest =>
    if seg.length ≤ n then (seg, rest) else (seg.take n, seg.drop n :: rest)

/-- The step `vec_a = client.recv(int(length))` — the query vector is read
with one single `recv` call in both `call_multi_iteration` and
`call_cuda_hamming_dist_in_compressed_domain`. -/
def call_multi_iteration_recv_query (segs : List (List Nat))
    (declaredLength : Nat) : List Nat :=
  (pyRecv segs declaredLength).1

def recvFull (fuel : Nat) (segs : List (List Nat)) (declared : Nat)
    (acc : List Nat) : Option (List Nat) :=
  if declared ≤ acc.length then some acc
  else
    match fuel with
    | 0 => none
    | fuel' + 1 =>
      match pyRecv segs (declared - acc.length) with
      | ([], _) => none
      | (chunk, rest) => recvFull fuel' rest declared (acc ++ chunk)

/-- Modelled from the spec: `conn.recv_long_vector` (module `conn` is not
among the repository sources).  §4.4: the receiver reassembles a
length-declared payload by repeatedly reading until the declared length is
reached; an empty read (peer closed) aborts. -/
def recv_long_vector (segs : List (List Nat)) (declared : Nat) :
    Option (List Nat) :=
  recvFull (segs.length + 1) segs declared []

/-! ### LSH single-table Hamming query (`LSHash.query`)

With one hash table the query builds `(key, dist)` candidates in
enumeration order of the loaded keys, sorts them with Python's stable
`list.sort(key=lambda x: x[1])`, truncates via
`candidates[:num_results] if num_results else candidates` (so `0` and
`None` both mean "all"), and resolves extra data through
`fetch_extra_data`, i.e. `table.get_list(key, key)` per candidate.  The
storage backend is not among the repository sources, so the lookup is a
function parameter. -/

def distLE (a b : Nat × Nat) : Prop := a.2 ≤ b.2

instance : DecidableRel distLE := fun a b => Nat.decLe a.2 b.2

instance : IsTotal (Nat × Nat) distLE := ⟨fun a b => Nat.le_total a.2 b.2⟩

instance : IsTrans (Nat × Nat) distLE := ⟨fun _ _ _ h1 h2 => Nat.le_trans h1 h2⟩

def lshash_query_hamming {α : Type} (get_list : Nat → Nat → α)
    (blockX gridX gridY : Nat) (binary_hash : Nat) (keys : List Nat)
    (num_results : Option Nat) : List (Nat × α × Nat) :=
  let hamming_distances := multi_iteration blockX gridX gridY binary_hash keys
  let hamming_candidates := keys.zip hamming_distances
  let sorted := List.insertionSort distLE hamming_candidates
  let truncated :=
    match num_results with
    | some n => if n ≠ 0 then sorted.take n else sorted
    | none => sorted
  truncated.map fun c => (c.1, get_list c.1 c.1, c.2)

/-! ### Server accept loop (`loop`, lines 94–125)

A connection is its first message plus an opaque payload handed to the
request handler.  A handler run is the list of messages it managed to send
before finishing or raising (`ValueError` protocol errors and any other
exception are caught by the loop's `try`/`except`, which prints and falls
through to `client.close()`).  `reset` and an unknown command send
nothing; an empty first read closes at once. -/

structure HandlerRun where
  sent : List String
  exn : Option String

structure ConnOutcome where
  sent : List String
  closed : Bool

def loopHandleConnection {α : Type}
    (handle_compressed handle_multi : α → HandlerRun)
    (firstMsg : String) (payload : α) : ConnOutcome :=
  if firstMsg = "" then { sent := [], closed := true }
  else if firstMsg = "cuda_hamming_dist_in_compressed_domain" then
    { sent := (handle_compressed payload).sent, closed := true }
  else if firstMsg = "multi_iteration" then
    { sent := (handle_multi payload).sent, closed := true }
  else if firstMsg = "reset" then { sent := [], closed := true }
  else { sent := [], closed := true }

def server_loop {α : Type} (handle_compressed handle_multi : α → HandlerRun)
    (conns : List (String × α)) : List ConnOutcome :=
  conns.map fun c => loopHandleConnection handle_compressed handle_multi c.1 c.2

/-! ### The packing rule as the specification words it (§4.2 step 4)

`64 / b` quantized values per shared output word, value of global index
`idx` at bit offset `(b - 1 - (idx mod (64 / b))) * b`, OR-combined.  Used
only to exhibit the divergence from the kernel. -/

def specPackedWords (qs : List Nat) (b : Nat) : List Nat :=
  let per := 64 / b
  (List.range ((qs.length + per - 1) / per)).map fun w =>
    (List.range per).foldl
      (fun acc j =>
        let idx := w * per + j
        match qs[idx]? with
        | some q => acc ||| (min q (2 ^ b - 1) <<< ((b - 1 - idx % per) * b))
        | none => acc)
      0

/-! ### Byte-local stages of the masked popcount, for the correctness proof -/

def s1 (m x : Nat) : Nat := x - ((x >>> 1) &&& m)

def s2 (m y : Nat) : Nat := (y &&& m) + ((y >>> 2) &&& m)

def s3 (m z : Nat) : Nat := (z + (z >>> 4)) &&& m

def mask1 : Nat → Nat
  | 0 => 0
  | k + 1 => 0x55 + 256 * mask1 k

def mask2 : Nat → Nat
  | 0 => 0
  | k + 1 => 0x33 + 256 * mask2 k

def mask4 : Nat → Nat
  | 0 => 0
  | k + 1 => 0x0f + 256 * mask4 k

/-- The three stages specialised to one byte. -/
def byteF (b : Nat) : Nat := s3 0x0f (s2 0x33 (s1 0x55 b))

/-- The three stages over `k` bytes. -/
def pipe (k x : Nat) : Nat := s3 (mask4 k) (s2 (mask2 k) (s1 (mask1 k) x))

/-- Bytewise popcounts, packed back into byte positions. -/
def byteSum : Nat → Nat → Nat
  | 0, _ => 0
  | k + 1, x => popcountNat (x % 256) + 256 * byteSum k (x / 256)

/-- Sum of the popcounts of the `k` low bytes. -/
def sumPc : Nat → Nat → Nat
  | 0, _ => 0
  | k + 1, x => popcountNat (x % 256) + sumPc k (x / 256)

/-! ### Concrete compressed columns used by the C1 counterexample

Four codes `[7, 0xfffff, 0, 0x7fff]` (Hamming distances 3, 20, 0 and 15
against query 0), encoded column-wise as alternating run lengths starting
with a zero run. -/

def exampleColumns : List (List Nat) :=
  (List.range 64).map fun c =>
    if c < 3 then [0, 2, 1, 1]
    else if c < 15 then [1, 1, 1, 1]
    else if c < 20 then [1, 1, 2]
    else [4]


/-! ## Correctness of the masked-add-reduce popcount -/

theorem pcAux_eq (f1 : Nat) : ∀ f2 n, n ≤ f1 → n ≤ f2 → pcAux f1 n = pcAux f2 n := by
  induction f1 with
  | zero =>
    intro f2 n h1 _
    interval_cases n
    cases f2 <;> rfl
  | succ f1 ih =>
    intro f2 n h1 h2
    match n, f2 with
    | 0, 0 => rfl
    | 0, _ + 1 => rfl
    | m + 1, f2' + 1 =>
      show (m + 1) % 2 + pcAux f1 ((m + 1) / 2)
        = (m + 1) % 2 + pcAux f2' ((m + 1) / 2)
      rw [ih f2' ((m + 1) / 2) (by omega) (by omega)]

theorem popcountNat_eq (n : Nat) :
    popcountNat n = n % 2 + popcountNat (n / 2) := by
  match n with
  | 0 => rfl
  | m + 1 =>
    show (m + 1) % 2 + pcAux m ((m + 1) / 2) = _
    rw [pcAux_eq m ((m + 1) / 2) ((m + 1) / 2) (by omega) (by omega)]
    rfl

theorem pc_add_mul_two_pow (k : Nat) :
    ∀ a b, a < 2 ^ k →
      popcountNat (a + 2 ^ k * b) = popcountNat a + popcountNat b := by
  induction k with
  | zero =>
    intro a b ha
    interval_cases a
    simp only [Nat.pow_zero, Nat.one_mul, Nat.zero_add]
    rw [show popcountNat 0 = 0 from rfl, Nat.zero_add]
  | succ k ih =>
    intro a b ha
    have e2 : (2:Nat) ^ (k + 1) * b = 2 * (2 ^ k * b) := by ring
    have hmod : (a + 2 ^ (k + 1) * b) % 2 = a % 2 := by
      rw [e2, Nat.add_mul_mod_self_left]
    have hdiv : (a + 2 ^ (k + 1) * b) / 2 = a / 2 + 2 ^ k * b := by
      rw [e2, Nat.add_mul_div_left _ _ (by omega : 0 < 2)]
    have ha2 : a / 2 < 2 ^ k := by
      have : (2:Nat) ^ (k+1) = 2 ^ k * 2 := by ring
      omega
    rw [popcountNat_eq (a + 2 ^ (k + 1) * b), hmod, hdiv, ih (a / 2) b ha2,
      popcountNat_eq a]
    omega

theorem land_split_pow (k a b c d : Nat) (ha : a < 2 ^ k) (hc : c < 2 ^ k) :
    (a + 2 ^ k * b) &&& (c + 2 ^ k * d) = (a &&& c) + 2 ^ k * (b &&& d) := by
  apply Nat.eq_of_testBit_eq
  intro i
  rw [Nat.add_comm a (2 ^ k * b), Nat.add_comm c (2 ^ k * d),
    Nat.add_comm (a &&& c) (2 ^ k * (b &&& d))]
  rw [Nat.testBit_and, Nat.testBit_mul_pow_two_add b ha i,
    Nat.testBit_mul_pow_two_add d hc i,
    Nat.testBit_mul_pow_two_add (b &&& d) (Nat.and_lt_two_pow a hc) i]
  by_cases h : i < k
  · simp [h]
  · simp [h, Nat.testBit_and]

theorem land_split8 (a b c d : Nat) (ha : a < 256) (hc : c < 256) :
    (a + 256 * b) &&& (c + 256 * d) = (a &&& c) + 256 * (b &&& d) := by
  have e : (2:Nat) ^ 8 = 256 := by norm_num
  have h := land_split_pow 8 a b c d (by omega) (by omega)
  rw [e] at h
  exact h

theorem shift1_split (a b : Nat) :
    (a + 256 * b) >>> 1 = (a >>> 1 + 128 * (b % 2)) + 256 * (b / 2) := by
  simp only [Nat.shiftRight_eq_div_pow, Nat.pow_one]
  omega

theorem shift2_split (a b : Nat) :
    (a + 256 * b) >>> 2 = (a >>> 2 + 64 * (b % 4)) + 256 * (b / 4) := by
  simp only [Nat.shiftRight_eq_div_pow]
  norm_num
  omega

theorem shift4_split (a b : Nat) :
    (a + 256 * b) >>> 4 = (a >>> 4 + 16 * (b % 16)) + 256 * (b / 16) := by
  simp only [Nat.shiftRight_eq_div_pow]
  norm_num
  omega

theorem land55_absorb (x e : Nat) (hx : x < 128) :
    (x + 128 * e) &&& 0x55 = x &&& 0x55 := by
  have e7 : (2:Nat) ^ 7 = 128 := by norm_num
  have h := land_split_pow 7 x e 0x55 0 (by omega) (by omega)
  rw [e7] at h
  simpa using h

theorem land33_absorb (x e : Nat) (hx : x < 64) :
    (x + 64 * e) &&& 0x33 = x &&& 0x33 := by
  have e6 : (2:Nat) ^ 6 = 64 := by norm_num
  have h := land_split_pow 6 x e 0x33 0 (by omega) (by omega)
  rw [e6] at h
  simpa using h

theorem land0f_eq_mod (z : Nat) : z &&& 0x0f = z % 16 := by
  have h := Nat.and_pow_two_sub_one_eq_mod z 4
  norm_num at h
  exact h

theorem s1_split (k b r : Nat) (hb : b < 256) :
    s1 (mask1 (k + 1)) (b + 256 * r) = s1 0x55 b + 256 * s1 (mask1 k) r := by
  simp only [s1, mask1]
  rw [shift1_split]
  have hlow : b >>> 1 + 128 * (r % 2) < 256 := by
    have : b >>> 1 = b / 2 := by simp [Nat.shiftRight_eq_div_pow]
    omega
  rw [land_split8 _ _ _ _ hlow (by norm_num)]
  rw [land55_absorb (b >>> 1) (r % 2)
    (by simp [Nat.shiftRight_eq_div_pow]; omega)]
  have hL : (b >>> 1) &&& 0x55 ≤ b := by
    have h1 : (b >>> 1) &&& 0x55 ≤ b >>> 1 := Nat.and_le_left
    have h2 : b >>> 1 ≤ b := by simp [Nat.shiftRight_eq_div_pow]; omega
    omega
  have hH : r / 2 &&& mask1 k ≤ r := by
    have h1 : r / 2 &&& mask1 k ≤ r / 2 := Nat.and_le_left
    omega
  have hr2 : r >>> 1 = r / 2 := by simp [Nat.shiftRight_eq_div_pow]
  rw [hr2]
  have hL256 : b >>> 1 &&& 0x55 < 256 := by
    have : b >>> 1 &&& 0x55 ≤ 0x55 := Nat.and_le_right
    omega
  omega

theorem s2_split (k c t : Nat) (hc : c < 256) :
    s2 (mask2 (k + 1)) (c + 256 * t) = s2 0x33 c + 256 * s2 (mask2 k) t := by
  simp only [s2, mask2]
  rw [land_split8 _ _ _ _ hc (by norm_num)]
  rw [shift2_split]
  have hc4 : c >>> 2 = c / 4 := by simp [Nat.shiftRight_eq_div_pow]
  have hlow : c >>> 2 + 64 * (t % 4) < 256 := by omega
  rw [land_split8 _ _ _ _ hlow (by norm_num)]
  rw [land33_absorb (c >>> 2) (t % 4) (by omega)]
  have ht4 : t >>> 2 = t / 4 := by simp [Nat.shiftRight_eq_div_pow]
  rw [ht4]
  ring

theorem s2_le102 (c : Nat) : s2 0x33 c ≤ 102 := by
  simp only [s2]
  have h1 : c &&& 0x33 ≤ 0x33 := Nat.and_le_right
  have h2 : (c >>> 2) &&& 0x33 ≤ 0x33 := Nat.and_le_right
  omega

theorem land_mod16 (a m : Nat) : (a &&& m) % 16 = a &&& (m &&& 0x0f) := by
  rw [← land0f_eq_mod, Nat.and_assoc]

theorem s2_mod16 (k t : Nat) : s2 (mask2 k) t % 16 ≤ 6 := by
  match k with
  | 0 =>
    simp only [s2, mask2]
    simp
  | k + 1 =>
    simp only [s2, mask2]
    have hm : (0x33 + 256 * mask2 k) &&& 0x0f = 3 := by
      rw [land0f_eq_mod]
      omega
    have h330f : (0x33 &&& (0x0f:Nat)) = 3 := by decide
    have h1 : (t &&& (0x33 + 256 * mask2 k)) % 16 ≤ 3 := by
      rw [land_mod16, hm]
      have h3 : t &&& 3 ≤ 3 := Nat.and_le_right
      omega
    have h2 : ((t >>> 2) &&& (0x33 + 256 * mask2 k)) % 16 ≤ 3 := by
      rw [land_mod16, hm]
      have h3 : (t >>> 2) &&& 3 ≤ 3 := Nat.and_le_right
      omega
    omega

theorem s3_split (k d u : Nat) (hd : d ≤ 102) (hu : u % 16 ≤ 6) :
    s3 (mask4 (k + 1)) (d + 256 * u) = s3 0x0f d + 256 * s3 (mask4 k) u := by
  simp only [s3, mask4]
  rw [shift4_split]
  have hd16 : d >>> 4 = d / 16 := by simp [Nat.shiftRight_eq_div_pow]
  have hu16 : u >>> 4 = u / 16 := by simp [Nat.shiftRight_eq_div_pow]
  have hre : d + 256 * u + (d >>> 4 + 16 * (u % 16) + 256 * (u / 16))
      = (d + d >>> 4 + 16 * (u % 16)) + 256 * (u + u / 16) := by ring
  rw [hre]
  have hlow : d + d >>> 4 + 16 * (u % 16) < 256 := by omega
  rw [land_split8 _ _ _ _ hlow (by norm_num)]
  rw [hu16, land0f_eq_mod, land0f_eq_mod]
  congr 1
  omega

set_option maxRecDepth 100000 in
theorem byteF_popcount : ∀ b < 256, byteF b = popcountNat b := by decide

set_option maxRecDepth 100000 in
theorem pcByte_le8 : ∀ b < 256, popcountNat b ≤ 8 := by decide

theorem s1_lt (b : Nat) (hb : b < 256) : s1 0x55 b < 256 := by
  simp only [s1]
  omega

theorem pipe_split (k b r : Nat) (hb : b < 256) :
    pipe (k + 1) (b + 256 * r) = byteF b + 256 * pipe k r := by
  simp only [pipe, byteF]
  rw [s1_split k b r hb]
  rw [s2_split k _ _ (s1_lt b hb)]
  rw [s3_split k _ _ (s2_le102 _) (s2_mod16 _ _)]

theorem pipe_zero : pipe 0 0 = 0 := by decide

theorem pipe_eq_byteSum : ∀ k x, x < 256 ^ k → pipe k x = byteSum k x := by
  intro k
  induction k with
  | zero =>
    intro x hx
    interval_cases x
    exact pipe_zero
  | succ k ih =>
    intro x hx
    have hsplit : x = x % 256 + 256 * (x / 256) := by omega
    have hdiv : x / 256 < 256 ^ k := by
      have : (256:Nat) ^ (k + 1) = 256 * 256 ^ k := by ring
      omega
    calc pipe (k + 1) x = pipe (k + 1) (x % 256 + 256 * (x / 256)) := by
          rw [← hsplit]
      _ = byteF (x % 256) + 256 * pipe k (x / 256) :=
          pipe_split k (x % 256) (x / 256) (by omega)
      _ = popcountNat (x % 256) + 256 * byteSum k (x / 256) := by
          rw [byteF_popcount (x % 256) (by omega), ih (x / 256) hdiv]
      _ = byteSum (k + 1) x := rfl

theorem sumPc_eq_popcount : ∀ k x, x < 256 ^ k → sumPc k x = popcountNat x := by
  intro k
  induction k with
  | zero =>
    intro x hx
    interval_cases x
    rfl
  | succ k ih =>
    intro x hx
    have hdiv : x / 256 < 256 ^ k := by
      have : (256:Nat) ^ (k + 1) = 256 * 256 ^ k := by ring
      omega
    have h8 : (256:Nat) = 2 ^ 8 := by norm_num
    have hx8 : x % 256 < 2 ^ 8 := by omega
    have hpc := pc_add_mul_two_pow 8 (x % 256) (x / 256) hx8
    rw [← h8] at hpc
    have hsplit : x % 256 + 256 * (x / 256) = x := by omega
    rw [hsplit] at hpc
    show popcountNat (x % 256) + sumPc k (x / 256) = popcountNat x
    rw [ih (x / 256) hdiv]
    omega

theorem mul_h01_shift (p0 p1 p2 p3 p4 p5 p6 p7 : Nat)
    (h0 : p0 ≤ 8) (h1 : p1 ≤ 8) (h2 : p2 ≤ 8) (h3 : p3 ≤ 8)
    (h4 : p4 ≤ 8) (h5 : p5 ≤ 8) (h6 : p6 ≤ 8) (h7 : p7 ≤ 8) :
    (((p0 + 256 * (p1 + 256 * (p2 + 256 * (p3 + 256 * (p4 + 256 * (p5
        + 256 * (p6 + 256 * (p7 + 256 * 0)))))))) * h01) % 2 ^ 64) >>> 56
      = p0 + (p1 + (p2 + (p3 + (p4 + (p5 + (p6 + (p7 + 0))))))) := by
  have key : (p0 + 256 * (p1 + 256 * (p2 + 256 * (p3 + 256 * (p4 + 256 * (p5
        + 256 * (p6 + 256 * (p7 + 256 * 0)))))))) * h01
      = (p0 + 256 * (p0 + p1) + 65536 * (p0 + p1 + p2)
          + 16777216 * (p0 + p1 + p2 + p3)
          + 4294967296 * (p0 + p1 + p2 + p3 + p4)
          + 1099511627776 * (p0 + p1 + p2 + p3 + p4 + p5)
          + 281474976710656 * (p0 + p1 + p2 + p3 + p4 + p5 + p6)
          + 72057594037927936 * (p0 + p1 + p2 + p3 + p4 + p5 + p6 + p7))
        + 18446744073709551616 * ((p1 + p2 + p3 + p4 + p5 + p6 + p7)
          + 256 * (p2 + p3 + p4 + p5 + p6 + p7)
          + 65536 * (p3 + p4 + p5 + p6 + p7)
          + 16777216 * (p4 + p5 + p6 + p7)
          + 4294967296 * (p5 + p6 + p7)
          + 1099511627776 * (p6 + p7)
          + 281474976710656 * p7) := by
    simp only [h01]
    ring
  rw [Nat.shiftRight_eq_div_pow, key]
  have hC : p0 + 256 * (p0 + p1) + 65536 * (p0 + p1 + p2)
      + 16777216 * (p0 + p1 + p2 + p3)
      + 4294967296 * (p0 + p1 + p2 + p3 + p4)
      + 1099511627776 * (p0 + p1 + p2 + p3 + p4 + p5)
      + 281474976710656 * (p0 + p1 + p2 + p3 + p4 + p5 + p6)
      < 72057594037927936 := by omega
  have hlt : p0 + 256 * (p0 + p1) + 65536 * (p0 + p1 + p2)
      + 16777216 * (p0 + p1 + p2 + p3)
      + 4294967296 * (p0 + p1 + p2 + p3 + p4)
      + 1099511627776 * (p0 + p1 + p2 + p3 + p4 + p5)
      + 281474976710656 * (p0 + p1 + p2 + p3 + p4 + p5 + p6)
      + 72057594037927936 * (p0 + p1 + p2 + p3 + p4 + p5 + p6 + p7)
      < 18446744073709551616 := by omega
  have h64 : (2:Nat) ^ 64 = 18446744073709551616 := by norm_num
  have h56 : (2:Nat) ^ 56 = 72057594037927936 := by norm_num
  rw [h64, h56, Nat.add_mul_mod_self_left, Nat.mod_eq_of_lt hlt,
    Nat.add_mul_div_left _ _ (by norm_num : (0:Nat) < 72057594037927936),
    Nat.div_eq_of_lt hC]
  rw [Nat.zero_add]
  ring

theorem mask1_eight : mask1 8 = m1 := by decide

theorem mask2_eight : mask2 8 = m2 := by decide

theorem mask4_eight : mask4 8 = m4 := by decide

theorem s1_le (m x : Nat) : s1 m x ≤ x := Nat.sub_le _ _

theorem s2_le (y : Nat) : s2 m2 y ≤ 2 * m2 := by
  simp only [s2]
  have h1 : y &&& m2 ≤ m2 := Nat.and_le_right
  have h2 : (y >>> 2) &&& m2 ≤ m2 := Nat.and_le_right
  omega

theorem popc64_eq_pipe (x : Nat) :
    popc64 x = ((pipe 8 x * h01) % 2 ^ 64) >>> 56 := by
  simp only [popc64, pipe, mask1_eight, mask2_eight, mask4_eight]
  rw [show x - ((x >>> 1) &&& m1) = s1 m1 x from rfl]
  have hm2 : m2 = 3689348814741910323 := rfl
  have h2 : s2 m2 (s1 m1 x) ≤ 2 * m2 := s2_le _
  have ex2 : ((s1 m1 x &&& m2) + ((s1 m1 x >>> 2) &&& m2)) % 2 ^ 64
      = s2 m2 (s1 m1 x) := by
    rw [show (s1 m1 x &&& m2) + ((s1 m1 x >>> 2) &&& m2) = s2 m2 (s1 m1 x) from rfl]
    apply Nat.mod_eq_of_lt
    omega
  rw [ex2]
  have hsh : (s2 m2 (s1 m1 x)) >>> 4 ≤ s2 m2 (s1 m1 x) := by
    simp only [Nat.shiftRight_eq_div_pow]
    exact Nat.div_le_self _ _
  have ex3 : (s2 m2 (s1 m1 x) + (s2 m2 (s1 m1 x)) >>> 4) % 2 ^ 64
      = s2 m2 (s1 m1 x) + (s2 m2 (s1 m1 x)) >>> 4 := by
    apply Nat.mod_eq_of_lt
    omega
  rw [ex3]
  rfl

theorem byteSum_nested (x : Nat) :
    byteSum 8 x = popcountNat (x % 256)
      + 256 * (popcountNat (x / 256 % 256)
      + 256 * (popcountNat (x / 256 / 256 % 256)
      + 256 * (popcountNat (x / 256 / 256 / 256 % 256)
      + 256 * (popcountNat (x / 256 / 256 / 256 / 256 % 256)
      + 256 * (popcountNat (x / 256 / 256 / 256 / 256 / 256 % 256)
      + 256 * (popcountNat (x / 256 / 256 / 256 / 256 / 256 / 256 % 256)
      + 256 * (popcountNat (x / 256 / 256 / 256 / 256 / 256 / 256 / 256 % 256)
      + 256 * 0))))))) := rfl

theorem sumPc_nested (x : Nat) :
    sumPc 8 x = popcountNat (x % 256)
      + (popcountNat (x / 256 % 256)
      + (popcountNat (x / 256 / 256 % 256)
      + (popcountNat (x / 256 / 256 / 256 % 256)
      + (popcountNat (x / 256 / 256 / 256 / 256 % 256)
      + (popcountNat (x / 256 / 256 / 256 / 256 / 256 % 256)
      + (popcountNat (x / 256 / 256 / 256 / 256 / 256 / 256 % 256)
      + (popcountNat (x / 256 / 256 / 256 / 256 / 256 / 256 / 256 % 256)
      + 0))))))) := rfl

theorem popc64_eq_popcount (x : Nat) (hx : x < 2 ^ 64) :
    popc64 x = popcountNat x := by
  have h256 : x < 256 ^ 8 := by norm_num at hx ⊢; omega
  rw [popc64_eq_pipe x, pipe_eq_byteSum 8 x h256, byteSum_nested]
  rw [mul_h01_shift _ _ _ _ _ _ _ _
    (pcByte_le8 _ (by omega)) (pcByte_le8 _ (by omega)) (pcByte_le8 _ (by omega))
    (pcByte_le8 _ (by omega)) (pcByte_le8 _ (by omega)) (pcByte_le8 _ (by omega))
    (pcByte_le8 _ (by omega)) (pcByte_le8 _ (by omega))]
  rw [← sumPc_nested, sumPc_eq_popcount 8 x h256]

theorem popcountNat_le_64 (x : Nat) (hx : x < 2 ^ 64) : popcountNat x ≤ 64 := by
  have h256 : x < 256 ^ 8 := by norm_num at hx ⊢; omega
  rw [← sumPc_eq_popcount 8 x h256, sumPc_nested]
  have b0 := pcByte_le8 (x % 256) (by omega)
  have b1 := pcByte_le8 (x / 256 % 256) (by omega)
  have b2 := pcByte_le8 (x / 256 / 256 % 256) (by omega)
  have b3 := pcByte_le8 (x / 256 / 256 / 256 % 256) (by omega)
  have b4 := pcByte_le8 (x / 256 / 256 / 256 / 256 % 256) (by omega)
  have b5 := pcByte_le8 (x / 256 / 256 / 256 / 256 / 256 % 256) (by omega)
  have b6 := pcByte_le8 (x / 256 / 256 / 256 / 256 / 256 / 256 % 256) (by omega)
  have b7 := pcByte_le8 (x / 256 / 256 / 256 / 256 / 256 / 256 / 256 % 256) (by omega)
  omega


/-! ## Lemmas: dense kernel and dispatch -/

theorem reachable_default (i : Nat) : reachable 500 2 1 i = true ↔ i < 1000 := by
  simp only [reachable, List.any_eq_true, List.mem_range, decide_eq_true_eq]
  constructor
  · rintro ⟨bY, hY, bX, hX, tX, hT, rfl⟩
    omega
  · intro h
    exact ⟨0, by omega, i / 500, by omega, i % 500, by omega, by omega⟩

theorem cuda_hamming_dist_length (blockX gridX gridY a : Nat) (b : List Nat) :
    (cuda_hamming_dist blockX gridX gridY a b).length = b.length := by
  simp [cuda_hamming_dist, hamming_dist]

theorem cuda_hamming_dist_getD (blockX gridX gridY a : Nat) (b : List Nat)
    (i : Nat) (hi : i < b.length) :
    (cuda_hamming_dist blockX gridX gridY a b).getD i 0
      = if reachable blockX gridX gridY i = true ∧ i < b.length then
          popc64 (Nat.xor a (b.getD i 0))
        else b.getD i 0 := by
  simp only [cuda_hamming_dist, hamming_dist]
  rw [List.getD_eq_getElem?_getD, List.getElem?_map, List.getElem?_range hi]
  rfl

theorem splitChunksAux_small (fuel : Nat) (l : List Nat)
    (h : l.length ≤ 10000000) : splitChunksAux fuel l = [l] := by
  cases fuel with
  | zero => rfl
  | succ fuel => simp [splitChunksAux, h]

theorem multi_iteration_small (blockX gridX gridY a : Nat) (b : List Nat)
    (h : b.length ≤ 10000000) :
    multi_iteration blockX gridX gridY a b
      = cuda_hamming_dist blockX gridX gridY a b := by
  simp [multi_iteration, splitChunks, splitChunksAux_small _ _ h]

/-! ## Lemmas: the quantization mask loop -/

theorem kernelMask_eq (b : Nat) (hb : b ≤ 64) : kernelMask b = 2 ^ b - 1 := by
  induction b with
  | zero => rfl
  | succ k ih =>
    have hk : k ≤ 64 := by omega
    simp only [kernelMask, List.range_succ, List.foldl_append, List.foldl_cons,
      List.foldl_nil]
    rw [show (List.range k).foldl (fun m _ => ((m <<< 1) % 2 ^ 64) ||| 1) 0
        = kernelMask k from rfl, ih hk]
    rw [Nat.shiftLeft_eq]
    have h1 : (1:Nat) ≤ 2 ^ k := Nat.one_le_two_pow
    have h2 : (2:Nat) ^ (k + 1) = 2 ^ k * 2 := by ring
    have h3 : (2:Nat) ^ (k + 1) ≤ 2 ^ 64 := Nat.pow_le_pow_right (by omega) (by omega)
    have hmod : ((2 ^ k - 1) * 2 ^ 1) % 2 ^ 64 = 2 ^ (k + 1) - 2 := by
      have e : ((2:Nat) ^ k - 1) * 2 ^ 1 = 2 ^ (k + 1) - 2 := by
        rw [h2]; omega
      rw [e]
      exact Nat.mod_eq_of_lt (by omega)
    rw [hmod]
    have e2 : (2:Nat) ^ (k + 1) - 2 = 2 * (2 ^ k - 1) := by rw [h2]; omega
    rw [e2]
    have hor : (2 * (2 ^ k - 1)) ||| 1 = 2 * (2 ^ k - 1) + 1 := by
      have h := Nat.mul_add_lt_is_or (b := 1) (i := 1) (by norm_num) (2 ^ k - 1)
      simpa using h.symm
    rw [hor]
    omega

/-! ## Claim theorems: dense kernel -/

/-- Claim C10.  In every dense dispatch the output starts as a copy of the
input codes and the kernel writes only thread ids reachable from the
block/grid shape — exactly the ids below 1000 for the default
`block = (500, 1, 1)`, `grid = (2, 1)` — so every cell at an index at or
beyond the thread count still holds the original input code, not a
distance. -/
theorem C10_frame_effect :
    (∀ i, reachable 500 2 1 i = true ↔ i < 1000)
    ∧ ∀ (a : Nat) (b : List Nat) (i : Nat), 1000 ≤ i →
        (cuda_hamming_dist 500 2 1 a b).getD i 0 = b.getD i 0 := by
  refine ⟨reachable_default, ?_⟩
  intro a b i h
  by_cases hi : i < b.length
  · rw [cuda_hamming_dist_getD _ _ _ _ _ _ hi, if_neg]
    rintro ⟨hr, _⟩
    rw [reachable_default] at hr
    omega
  · rw [List.getD_eq_getElem?_getD, List.getD_eq_getElem?_getD,
      List.getElem?_eq_none (by rw [cuda_hamming_dist_length]; omega),
      List.getElem?_eq_none (by omega)]

/-- Witness for C10 at a concrete input: a 1001-element chunk keeps its
original code `7` at index 1000. -/
theorem C10_frame_effect_witness :
    ((cuda_hamming_dist 500 2 1 3 (List.replicate 1001 7)).getD 1000 0
        = (List.replicate 1001 7).getD 1000 0)
    ∧ (List.replicate 1001 7).getD 1000 0 = 7 :=
  ⟨C10_frame_effect.2 3 (List.replicate 1001 7) 1000 (by omega), by decide⟩

/-- Claim C2, counterexample: with the default 1000-thread dispatch, a
1001-element code array keeps its input value 5 at index 1000 instead of
the Hamming distance popcount(0 XOR 5) = 2, so the universally quantified
claim is false as stated. -/
theorem C2_dense_counterexample :
    (cuda_hamming_dist 500 2 1 0 (List.replicate 1001 5)).getD 1000 0
      ≠ popcountNat (Nat.xor 0 ((List.replicate 1001 5).getD 1000 0)) := by
  have hrep : (List.replicate 1001 5).getD 1000 0 = 5 := by decide
  have h1 : (cuda_hamming_dist 500 2 1 0 (List.replicate 1001 5)).getD 1000 0 = 5 := by
    rw [cuda_hamming_dist_getD _ _ _ _ _ _ (by simp), if_neg, hrep]
    rintro ⟨hr, _⟩
    rw [reachable_default] at hr
    omega
  rw [h1, hrep]
  decide

/-- Claim C2 (amended).  For every index `i` below the dispatched thread
count (1000 with the default block/grid), the dense dispatch writes
`popcount(query XOR codes[i])`, the value is at most 64, and it depends on
no other index of the code array. -/
theorem C2_dense_amended (a : Nat) (b : List Nat) (i : Nat)
    (hi : i < b.length) (ht : i < 1000) (ha : a < 2 ^ 64)
    (hb : b.getD i 0 < 2 ^ 64) :
    (cuda_hamming_dist 500 2 1 a b).getD i 0
        = popcountNat (Nat.xor a (b.getD i 0))
    ∧ popcountNat (Nat.xor a (b.getD i 0)) ≤ 64
    ∧ (∀ b' : List Nat, b'.length = b.length → b'.getD i 0 = b.getD i 0 →
        (cuda_hamming_dist 500 2 1 a b').getD i 0
          = (cuda_hamming_dist 500 2 1 a b).getD i 0) := by
  have hx : Nat.xor a (b.getD i 0) < 2 ^ 64 := Nat.xor_lt_two_pow ha hb
  have hmain : (cuda_hamming_dist 500 2 1 a b).getD i 0
      = popcountNat (Nat.xor a (b.getD i 0)) := by
    rw [cuda_hamming_dist_getD _ _ _ _ _ _ hi,
      if_pos ⟨(reachable_default i).mpr ht, hi⟩, popc64_eq_popcount _ hx]
  refine ⟨hmain, popcountNat_le_64 _ hx, ?_⟩
  intro b' hlen hval
  rw [hmain, cuda_hamming_dist_getD _ _ _ _ _ _ (by omega),
    if_pos ⟨(reachable_default i).mpr ht, by omega⟩, hval,
    popc64_eq_popcount _ hx]

/-- Witness for the amended C2 at query 0, codes `[5]`, index 0. -/
theorem C2_dense_amended_witness :
    ((cuda_hamming_dist 500 2 1 0 [5]).getD 0 0
        = popcountNat (Nat.xor 0 ([5].getD 0 0))
      ∧ popcountNat (Nat.xor 0 ([5].getD 0 0)) ≤ 64)
    ∧ popcountNat (Nat.xor 0 ([5].getD 0 0)) = 2 :=
  ⟨⟨(C2_dense_amended 0 [5] 0 (by decide) (by decide) (by decide) (by decide)).1,
    (C2_dense_amended 0 [5] 0 (by decide) (by decide) (by decide) (by decide)).2.1⟩,
   by decide⟩

/-! ## Claim theorems: quantization -/

/-- Claim C3.  The compressed kernel's quantization step — mask built by
the `mask = (mask << 1) | 1` loop, then `if (distance > mask) distance =
mask` — is the saturating upper clamp `min(distance, 2^b - 1)`; distances
not above the mask pass through unchanged (no lower clamp). -/
theorem C3_quantize_clamp (b d : Nat) (hb : b ≤ 64) :
    kernelMask b = 2 ^ b - 1
    ∧ (if d > kernelMask b then kernelMask b else d) = min d (2 ^ b - 1)
    ∧ (d ≤ 2 ^ b - 1 → (if d > kernelMask b then kernelMask b else d) = d) := by
  have hm := kernelMask_eq b hb
  refine ⟨hm, ?_, ?_⟩
  · rw [hm]
    rcases Nat.lt_or_ge (2 ^ b - 1) d with h | h
    · rw [if_pos h, Nat.min_eq_right (by omega)]
    · rw [if_neg (by omega), Nat.min_eq_left h]
  · intro hd
    rw [hm, if_neg (by omega)]

/-- Witness for C3 at `b = 4`, `d = 20`: the kernel clamp yields 15. -/
theorem C3_quantize_clamp_witness :
    ((if 20 > kernelMask 4 then kernelMask 4 else 20) = min 20 (2 ^ 4 - 1))
    ∧ min 20 (2 ^ 4 - 1) = 15 :=
  ⟨(C3_quantize_clamp 4 20 (by decide)).2.1, by decide⟩

/-! ## Lemmas: compressed kernel -/

theorem compressed_hamming_dist_getD (bX gX gY q : Nat) (cols : List (List Nat))
    (N bas idx : Nat) (h : idx < N) :
    (compressed_hamming_dist bX gX gY q cols N bas).getD idx 0
      = if reachable bX gX gY (idx / 100) = true then
          (if popc64 (Nat.xor q (decodeCodeAt cols idx)) > kernelMask bas
           then kernelMask bas
           else popc64 (Nat.xor q (decodeCodeAt cols idx)))
            <<< (((bas - 1) - idx % bas) * bas)
        else 0 := by
  simp only [compressed_hamming_dist]
  rw [List.getD_eq_getElem?_getD, List.getElem?_map, List.getElem?_range h]
  rfl

theorem compressed_hamming_dist_length (bX gX gY q : Nat)
    (cols : List (List Nat)) (N bas : Nat) :
    (compressed_hamming_dist bX gX gY q cols N bas).length = N := by
  simp [compressed_hamming_dist]

theorem decodeCodeAt_lt (cols : List (List Nat)) (idx : Nat) :
    decodeCodeAt cols idx < 2 ^ 64 := by
  have gen : ∀ (l : List Nat), (∀ c ∈ l, c < 64) → ∀ acc, acc < 2 ^ 64 →
      (l.foldl (fun acc c =>
        if runBit (cols.getD c []) false idx then acc ||| (1 <<< c) else acc)
        acc) < 2 ^ 64 := by
    intro l
    induction l with
    | nil =>
      intro _ acc hacc
      simpa using hacc
    | cons c t ih =>
      intro hmem acc hacc
      simp only [List.foldl_cons]
      apply ih (fun x hx => hmem x (List.mem_cons_of_mem _ hx))
      by_cases hr : runBit (cols.getD c []) false idx
      · rw [if_pos hr]
        apply Nat.or_lt_two_pow hacc
        rw [Nat.shiftLeft_eq, Nat.one_mul]
        exact Nat.pow_lt_pow_right (by omega) (hmem c (List.mem_cons_self c t))
      · rwa [if_neg hr]
  exact gen (List.range 64) (fun c hc => List.mem_range.mp hc) 0 (by norm_num)

theorem shiftLeft_shiftRight_cancel (a k : Nat) : (a <<< k) >>> k = a := by
  rw [Nat.shiftLeft_eq, Nat.shiftRight_eq_div_pow,
    Nat.mul_div_cancel _ (Nat.two_pow_pos k)]

theorem if_gt_eq_min (d m : Nat) : (if d > m then m else d) = min d m := by
  rcases Nat.lt_or_ge m d with h | h
  · rw [if_pos h, Nat.min_eq_right (by omega)]
  · rw [if_neg (by omega), Nat.min_eq_left h]

/-! ## Claim theorems: compressed kernel packing -/

/-- Claim C1, counterexample.  With base 4, query 0 and four encoded codes
whose Hamming distances are 3, 20, 0 and 15, the kernel writes one word
per code — `[3 <<< 12, 15 <<< 8, 0, 15]` — and not the single shared word
`0x3f0f = 16143` that the spec's §4.2 offset formula
`(b-1 - (idx mod (64/b))) * b` would pack, so unpacking output words the
spec's way does not recover the quantized distances. -/
theorem C1_pack_counterexample :
    (popcountNat (Nat.xor 0 (decodeCodeAt exampleColumns 0)) = 3
      ∧ popcountNat (Nat.xor 0 (decodeCodeAt exampleColumns 1)) = 20
      ∧ popcountNat (Nat.xor 0 (decodeCodeAt exampleColumns 2)) = 0
      ∧ popcountNat (Nat.xor 0 (decodeCodeAt exampleColumns 3)) = 15)
    ∧ compressed_hamming_dist 500 2 1 0 exampleColumns 4 4 = [12288, 3840, 0, 15]
    ∧ specPackedWords [3, 20, 0, 15] 4 = [16143]
    ∧ compressed_hamming_dist 500 2 1 0 exampleColumns 4 4
        ≠ specPackedWords [3, 20, 0, 15] 4 := by
  refine ⟨⟨by decide, by decide, by decide, by decide⟩, by decide, by decide, ?_⟩
  intro h
  rw [show compressed_hamming_dist 500 2 1 0 exampleColumns 4 4
      = [12288, 3840, 0, 15] from by decide,
    show specPackedWords [3, 20, 0, 15] 4 = [16143] from by decide] at h
  cases h

/-- Claim C1 (amended).  For every reachable code index the kernel ORs the
quantized distance `min(popcount(query XOR code), 2^b - 1)` into the output
word at the code's own index — the computed shared-word index `idx / b`
is unused — at bit offset `((b-1) - (idx mod b)) * b`, and shifting that
word back down recovers the quantized distance. -/
theorem C1_pack_amended (bX gX gY q : Nat) (cols : List (List Nat))
    (N bas idx : Nat) (hidx : idx < N)
    (hr : reachable bX gX gY (idx / 100) = true)
    (hb : bas ≤ 64) (hq : q < 2 ^ 64) :
    (compressed_hamming_dist bX gX gY q cols N bas).getD idx 0
        = min (popcountNat (Nat.xor q (decodeCodeAt cols idx))) (2 ^ bas - 1)
            <<< (((bas - 1) - idx % bas) * bas)
    ∧ ((compressed_hamming_dist bX gX gY q cols N bas).getD idx 0)
          >>> (((bas - 1) - idx % bas) * bas)
        = min (popcountNat (Nat.xor q (decodeCodeAt cols idx))) (2 ^ bas - 1) := by
  have hcode := decodeCodeAt_lt cols idx
  have hx : Nat.xor q (decodeCodeAt cols idx) < 2 ^ 64 :=
    Nat.xor_lt_two_pow hq hcode
  have hmain : (compressed_hamming_dist bX gX gY q cols N bas).getD idx 0
      = min (popcountNat (Nat.xor q (decodeCodeAt cols idx))) (2 ^ bas - 1)
          <<< (((bas - 1) - idx % bas) * bas) := by
    rw [compressed_hamming_dist_getD _ _ _ _ _ _ _ _ hidx, if_pos hr,
      popc64_eq_popcount _ hx, kernelMask_eq bas hb, if_gt_eq_min]
  exact ⟨hmain, by rw [hmain, shiftLeft_shiftRight_cancel]⟩

/-- Witness for the amended C1 at base 4, index 1 of the example columns:
the word at index 1 is `min(20, 15) <<< ((3 - 1) * 4) = 3840`. -/
theorem C1_pack_amended_witness :
    ((compressed_hamming_dist 500 2 1 0 exampleColumns 4 4).getD 1 0
        = min (popcountNat (Nat.xor 0 (decodeCodeAt exampleColumns 1))) (2 ^ 4 - 1)
            <<< (((4 - 1) - 1 % 4) * 4))
    ∧ (compressed_hamming_dist 500 2 1 0 exampleColumns 4 4).getD 1 0 = 3840 :=
  ⟨(C1_pack_amended 500 2 1 0 exampleColumns 4 4 1 (by decide) (by decide)
      (by decide) (by decide)).1,
   by decide⟩

/-! ## Claim theorems: compressed-domain wrapper and server call -/

/-- Claim C6.  The wrapper overwrites the item-id-derived count with the
constant 100: the length passed to the kernel, the allocated distance
buffer and the kernel output all have length 100 regardless of the
supplied item ids or columns. -/
theorem C6_hundred_override (bX gX gY va : Nat) (cols : List (List Nat))
    (ids : List Nat) :
    (cuda_hamming_dist_in_compressed_domain bX gX gY va cols ids).binary_code_length = 100
    ∧ (cuda_hamming_dist_in_compressed_domain bX gX gY va cols ids).distances0.length = 100
    ∧ (cuda_hamming_dist_in_compressed_domain bX gX gY va cols ids).result.length = 100 := by
  refine ⟨rfl, ?_, ?_⟩
  · simp [cuda_hamming_dist_in_compressed_domain]
  · simp [cuda_hamming_dist_in_compressed_domain, compressed_hamming_dist_length]

/-- Claim C5.  The server invokes the compressed-domain wrapper with one
positional argument more than its signature accepts, so the compute step
raises a `TypeError` and no reply is produced; and the wrapper itself
falls off its body without returning a distance buffer. -/
theorem C5_compressed_call_raises (bX gX gY va : Nat) (cols : List (List Nat))
    (ids : List Nat) :
    call_cuda_hamming_dist_in_compressed_domain_compute bX gX gY va cols ids
        = Except.error
            "TypeError: cuda_hamming_dist_in_compressed_domain() takes exactly 4 arguments (5 given)"
    ∧ serverCompressedCallArgCount = compressedWrapperParamCount + 1
    ∧ (cuda_hamming_dist_in_compressed_domain bX gX gY va cols ids).retval = none :=
  ⟨rfl, rfl, rfl⟩

/-- Claim C4.  `call_multi_iteration` indexes the returned distance array
as if it were a `(distances, time)` pair, so the compute step raises an
IndexError for every input and never replies with the per-code distance
vector; at query 0 with codes `[5, 3]` the raised error is the
`shape`-of-a-scalar IndexError. -/
theorem C4_multi_iteration_reply_bug :
    (∀ (bX gX gY va : Nat) (codes : List Nat),
        (call_multi_iteration_compute bX gX gY va codes).isOk = false)
    ∧ call_multi_iteration_compute 500 2 1 0 [5, 3]
        = Except.error "IndexError: tuple index out of range" := by
  constructor
  · intro bX gX gY va codes
    simp only [call_multi_iteration_compute, log_info, npScalarShape,
      List.getElem?_nil]
    cases h1 : (multi_iteration bX gX gY va codes)[1]? with
    | none => rfl
    | some d =>
      cases h0 : (multi_iteration bX gX gY va codes)[0]? with
      | none => rfl
      | some d0 => rfl
  · have e : multi_iteration 500 2 1 0 [5, 3] = cuda_hamming_dist 500 2 1 0 [5, 3] :=
      multi_iteration_small _ _ _ _ _ (by norm_num)
    simp only [call_multi_iteration_compute, e]
    rfl

/-! ## Lemmas: streaming receiver -/

theorem recvFull_exact :
    ∀ (fuel : Nat) (segs : List (List Nat)) (declared : Nat) (acc : List Nat),
      (∀ s ∈ segs, s ≠ []) → segs.length < fuel →
      declared ≤ acc.length + segs.flatten.length →
      recvFull fuel segs declared acc
        = some (acc ++ segs.flatten.take (declared - acc.length)) := by
  intro fuel
  induction fuel with
  | zero =>
    intro segs _ _ _ hfuel _
    omega
  | succ fuel ih =>
    intro segs declared acc hne hfuel hlen
    by_cases hd : declared ≤ acc.length
    · have e : recvFull (fuel + 1) segs declared acc = some acc := by
        simp [recvFull, hd]
      rw [e, Nat.sub_eq_zero_of_le hd, List.take_zero, List.append_nil]
    · cases segs with
      | nil =>
        exfalso
        simp at hlen
        omega
      | cons seg rest =>
        have hseg : seg ≠ [] := hne seg (List.mem_cons_self _ _)
        cases seg with
        | nil => exact absurd rfl hseg
        | cons b bs =>
          simp only [List.flatten_cons, List.length_append, List.length_cons]
            at hlen
          by_cases hcase : (b :: bs).length ≤ declared - acc.length
          · have e : recvFull (fuel + 1) ((b :: bs) :: rest) declared acc
                = recvFull fuel rest declared (acc ++ (b :: bs)) := by
              simp only [recvFull, if_neg hd, pyRecv, if_pos hcase]
            have hfu : rest.length < fuel := by
              have hlc : ((b :: bs) :: rest).length = rest.length + 1 := by simp
              omega
            have hcase' : bs.length + 1 ≤ declared - acc.length := by
              simpa using hcase
            have hln : declared ≤ (acc ++ (b :: bs)).length + rest.flatten.length := by
              rw [List.length_append, List.length_cons]
              omega
            rw [e, ih rest declared (acc ++ (b :: bs))
              (fun s hs => hne s (List.mem_cons_of_mem _ hs)) hfu hln]
            have harg : declared - (acc ++ (b :: bs)).length
                = declared - acc.length - (b :: bs).length := by
              rw [List.length_append]
              omega
            rw [harg, List.flatten_cons, List.take_append_eq_append_take,
              List.take_of_length_le hcase, List.append_assoc]
          · have hn1 : 1 ≤ declared - acc.length := by omega
            obtain ⟨m, hm⟩ : ∃ m, declared - acc.length = m + 1 :=
              ⟨declared - acc.length - 1, by omega⟩
            have htake : (b :: bs).take (declared - acc.length)
                = b :: bs.take m := by
              rw [hm, List.take_succ_cons]
            have e : recvFull (fuel + 1) ((b :: bs) :: rest) declared acc
                = recvFull fuel ((b :: bs).drop (declared - acc.length) :: rest)
                    declared (acc ++ (b :: bs.take m)) := by
              rw [show recvFull (fuel + 1) ((b :: bs) :: rest) declared acc
                  = if declared ≤ acc.length then some acc
                    else
                      match pyRecv ((b :: bs) :: rest) (declared - acc.length) with
                      | ([], _) => none
                      | (chunk, rest') => recvFull fuel rest' declared (acc ++ chunk)
                  from rfl]
              rw [if_neg hd]
              simp only [pyRecv, if_neg hcase, htake]
            have hlen2 : (acc ++ (b :: bs.take m)).length = declared := by
              simp only [List.length_append, List.length_cons, List.length_take]
              simp only [List.length_cons] at hcase
              omega
            rw [e, show recvFull fuel ((b :: bs).drop (declared - acc.length) :: rest)
                declared (acc ++ (b :: bs.take m))
                = some (acc ++ (b :: bs.take m)) from by
              unfold recvFull
              rw [hlen2]
              simp]
            rw [List.flatten_cons, List.take_append_eq_append_take]
            have h0 : declared - acc.length - (b :: bs).length = 0 := by
              simp only [List.length_cons] at hcase ⊢
              omega
            rw [h0, List.take_zero, List.append_nil, htake]

/-- Claim C7, counterexample.  The query vector is read with a single
`recv`: when a 4-byte declared query arrives in two 2-byte segments, the
server obtains only the first 2 bytes, not the declared 4. -/
theorem C7_recv_counterexample :
    (call_multi_iteration_recv_query [[1, 2], [3, 4]] 4).length ≠ 4 := by
  decide

/-- Claim C7 (amended).  Payloads received through `conn.recv_long_vector`
(modelled from the spec) are reassembled across partial reads to exactly
the declared byte count; the query vector, however, is read with one bare
`recv` and yields only the first pending segment truncated to the declared
length. -/
theorem C7_recv_amended :
    (∀ (segs : List (List Nat)) (declared : Nat),
        (∀ s ∈ segs, s ≠ []) → declared ≤ segs.flatten.length →
        recv_long_vector segs declared = some (segs.flatten.take declared)
        ∧ (segs.flatten.take declared).length = declared)
    ∧ ∀ (seg : List Nat) (rest : List (List Nat)) (declared : Nat),
        call_multi_iteration_recv_query (seg :: rest) declared
          = seg.take declared := by
  constructor
  · intro segs declared hne hlen
    constructor
    · have h := recvFull_exact (segs.length + 1) segs declared []
        hne (by omega) (by simpa using hlen)
      simpa [recv_long_vector] using h
    · rw [List.length_take]
      omega
  · intro seg rest declared
    simp only [call_multi_iteration_recv_query, pyRecv]
    by_cases h : seg.length ≤ declared
    · rw [if_pos h, List.take_of_length_le h]
    · rw [if_neg h]

/-- Witness for the amended C7: a 3-byte payload split `[[1,2],[3,4]]` is
reassembled to `[1,2,3]` by the long-vector receiver, while the bare query
`recv` on the same segments returns `[1,2]`. -/
theorem C7_recv_amended_witness :
    (recv_long_vector [[1, 2], [3, 4]] 3 = some [1, 2, 3]
      ∧ ([[1, 2], [3, 4]] : List (List Nat)).flatten.take 3 = [1, 2, 3])
    ∧ call_multi_iteration_recv_query [[1, 2], [3, 4]] 3 = [1, 2] := by
  refine ⟨⟨?_, by decide⟩, ?_⟩
  · have h := (C7_recv_amended.1 [[1, 2], [3, 4]] 3 (by decide) (by decide)).1
    rw [h]
    decide
  · rw [C7_recv_amended.2 [1, 2] [[3, 4]] 3]
    decide

/-! ## Lemmas: stable sort and the single-table query -/

theorem filter_orderedInsert_pos (a : Nat × Nat) (l : List (Nat × Nat))
    (d : Nat) (ha : a.2 = d) :
    (List.orderedInsert distLE a l).filter (fun c => c.2 == d)
      = a :: l.filter (fun c => c.2 == d) := by
  induction l with
  | nil =>
    rw [show List.orderedInsert distLE a ([] : List (Nat × Nat)) = [a] from rfl,
      List.filter_cons_of_pos (by simp [ha])]
  | cons b t ih =>
    by_cases h : distLE a b
    · rw [List.orderedInsert_of_le distLE t h,
        List.filter_cons_of_pos (by simp [ha])]
    · have hblt : b.2 < a.2 := by
        simp only [distLE] at h
        omega
      rw [show List.orderedInsert distLE a (b :: t)
          = b :: List.orderedInsert distLE a t from by
        simp [List.orderedInsert, h]]
      rw [List.filter_cons_of_neg (by simp [beq_iff_eq]; omega),
        List.filter_cons_of_neg (by simp [beq_iff_eq]; omega), ih]

theorem filter_orderedInsert_neg (a : Nat × Nat) (l : List (Nat × Nat))
    (d : Nat) (ha : a.2 ≠ d) :
    (List.orderedInsert distLE a l).filter (fun c => c.2 == d)
      = l.filter (fun c => c.2 == d) := by
  induction l with
  | nil =>
    rw [show List.orderedInsert distLE a ([] : List (Nat × Nat)) = [a] from rfl,
      List.filter_cons_of_neg (by simp [ha])]
  | cons b t ih =>
    by_cases h : distLE a b
    · rw [List.orderedInsert_of_le distLE t h,
        List.filter_cons_of_neg (by simp [ha])]
    · rw [show List.orderedInsert distLE a (b :: t)
          = b :: List.orderedInsert distLE a t from by
        simp [List.orderedInsert, h]]
      by_cases hb : b.2 = d
      · rw [List.filter_cons_of_pos (by simp [hb]),
          List.filter_cons_of_pos (by simp [hb]), ih]
      · rw [List.filter_cons_of_neg (by simp [hb]),
          List.filter_cons_of_neg (by simp [hb]), ih]

theorem insertionSort_filter (l : List (Nat × Nat)) (d : Nat) :
    (List.insertionSort distLE l).filter (fun c => c.2 == d)
      = l.filter (fun c => c.2 == d) := by
  induction l with
  | nil => rfl
  | cons a t ih =>
    simp only [List.insertionSort]
    by_cases ha : a.2 = d
    · rw [filter_orderedInsert_pos _ _ _ ha, ih,
        List.filter_cons_of_pos (by simp [ha])]
    · rw [filter_orderedInsert_neg _ _ _ ha, ih,
        List.filter_cons_of_neg (by simp [ha])]

theorem cuda_hamming_dist_all (a : Nat) (b : List Nat) (hlen : b.length ≤ 1000)
    (ha : a < 2 ^ 64) (hb : ∀ x ∈ b, x < 2 ^ 64) :
    cuda_hamming_dist 500 2 1 a b = b.map fun k => popcountNat (Nat.xor a k) := by
  apply List.ext_getElem?
  intro i
  by_cases hi : i < b.length
  · simp only [cuda_hamming_dist, hamming_dist]
    rw [List.getElem?_map, List.getElem?_range hi, List.getElem?_map,
      List.getElem?_eq_getElem hi]
    simp only [Option.map_some']
    congr 1
    rw [if_pos ⟨(reachable_default i).mpr (by omega), hi⟩]
    rw [List.getD_eq_getElem?_getD, List.getElem?_eq_getElem hi]
    simp only [Option.getD_some]
    exact popc64_eq_popcount _
      (Nat.xor_lt_two_pow ha (hb _ (List.getElem_mem hi)))
  · rw [List.getElem?_eq_none (by simp [cuda_hamming_dist_length]; omega),
      List.getElem?_eq_none (by simp; omega)]

theorem zip_self_map {β : Type} (l : List Nat) (f : Nat → β) :
    l.zip (l.map f) = l.map fun a => (a, f a) := by
  have h := List.zip_map' (fun a => a) f l
  simpa using h

theorem lshash_query_eq_some {α : Type} (gl : Nat → Nat → α) (q : Nat)
    (keys : List Nat) (n : Nat) (hq : q < 2 ^ 64)
    (hk : ∀ k ∈ keys, k < 2 ^ 64) (hlen : keys.length ≤ 1000) (hn : n ≠ 0) :
    lshash_query_hamming gl 500 2 1 q keys (some n)
      = ((List.insertionSort distLE
          (keys.map fun k => (k, popcountNat (Nat.xor q k)))).take n).map
            fun c => (c.1, gl c.1 c.1, c.2) := by
  simp only [lshash_query_hamming]
  rw [multi_iteration_small _ _ _ _ _ (by omega),
    cuda_hamming_dist_all q keys hlen hq hk, zip_self_map]
  simp [hn]

theorem lshash_query_eq_none {α : Type} (gl : Nat → Nat → α) (q : Nat)
    (keys : List Nat) (hq : q < 2 ^ 64)
    (hk : ∀ k ∈ keys, k < 2 ^ 64) (hlen : keys.length ≤ 1000) :
    lshash_query_hamming gl 500 2 1 q keys none
      = (List.insertionSort distLE
          (keys.map fun k => (k, popcountNat (Nat.xor q k)))).map
            fun c => (c.1, gl c.1 c.1, c.2) := by
  simp only [lshash_query_hamming]
  rw [multi_iteration_small _ _ _ _ _ (by omega),
    cuda_hamming_dist_all q keys hlen hq hk, zip_self_map]

theorem strip_extra_map {α : Type} (gl : Nat → Nat → α) (l : List (Nat × Nat)) :
    (l.map (fun c => (c.1, gl c.1 c.1, c.2))).map (fun c => (c.1, c.2.2)) = l := by
  induction l with
  | nil => rfl
  | cons x t ih => simp [ih]

/-! ## Claim theorems: single-table query -/

/-- Claim C8, counterexample.  Python's `candidates[:num_results] if
num_results else candidates` treats `num_results = 0` as "no limit": with
one candidate and `numResults = 0` the query returns 1 result, not the
empty truncation the claim prescribes. -/
theorem C8_query_counterexample :
    (lshash_query_hamming (fun (k : Nat) (_ : Nat) => k) 500 2 1 0 [5]
      (some 0)).length ≠ 0 := by
  decide

/-- Claim C8 (amended).  For a single-table Hamming query whose candidate
list fits the dispatched thread count (≤ 1000) and whose `numResults` is
positive when given: results are ranked ascending by true Hamming
distance; every surviving entry carries its key's Hamming distance to the
query and the store lookup `get_list key key`; ties keep enumeration order
(the per-distance subsequence of the output is a prefix of the
per-distance subsequence of the enumerated candidates); the list is
truncated to `numResults`; and with no limit the output is a permutation
of all candidates. -/
theorem C8_query_amended {α : Type} (gl : Nat → Nat → α) (q : Nat)
    (keys : List Nat) (nr : Option Nat) (hq : q < 2 ^ 64)
    (hk : ∀ k ∈ keys, k < 2 ^ 64) (hlen : keys.length ≤ 1000)
    (hnr : nr ≠ some 0) :
    List.Pairwise (fun a b => a.2.2 ≤ b.2.2)
        (lshash_query_hamming gl 500 2 1 q keys nr)
    ∧ (∀ c ∈ lshash_query_hamming gl 500 2 1 q keys nr,
        c.2.2 = popcountNat (Nat.xor q c.1) ∧ c.2.1 = gl c.1 c.1)
    ∧ (∀ d : Nat,
        ((lshash_query_hamming gl 500 2 1 q keys nr).map
            (fun c => (c.1, c.2.2))).filter (fun c => c.2 == d)
          <+: ((keys.map fun k => (k, popcountNat (Nat.xor q k))).filter
            (fun c => c.2 == d)))
    ∧ (lshash_query_hamming gl 500 2 1 q keys nr).length
        = (match nr with
           | some n => min n keys.length
           | none => keys.length)
    ∧ (nr = none →
        ((lshash_query_hamming gl 500 2 1 q keys nr).map
          (fun c => (c.1, c.2.2))).Perm
          (keys.map fun k => (k, popcountNat (Nat.xor q k)))) := by
  have hsorted := List.sorted_insertionSort distLE
    (keys.map fun k => (k, popcountNat (Nat.xor q k)))
  cases nr with
  | some n =>
    have hn : n ≠ 0 := fun h => hnr (by rw [h])
    have hmain := lshash_query_eq_some gl q keys n hq hk hlen hn
    refine ⟨?_, ?_, ?_, ?_, ?_⟩
    · rw [hmain]
      exact List.pairwise_map.mpr ((hsorted.take).imp (fun h => h))
    · intro c hc
      rw [hmain] at hc
      obtain ⟨c', hc', rfl⟩ := List.mem_map.mp hc
      have hc2 : c' ∈ List.insertionSort distLE
          (keys.map fun k => (k, popcountNat (Nat.xor q k))) :=
        List.mem_of_mem_take hc'
      obtain ⟨k, _, rfl⟩ :=
        List.mem_map.mp ((List.mem_insertionSort distLE).mp hc2)
      exact ⟨rfl, rfl⟩
    · intro d
      rw [hmain, strip_extra_map]
      calc (List.take n (List.insertionSort distLE
              (keys.map fun k => (k, popcountNat (Nat.xor q k))))).filter
              (fun c => c.2 == d)
          <+: (List.insertionSort distLE
              (keys.map fun k => (k, popcountNat (Nat.xor q k)))).filter
              (fun c => c.2 == d) :=
            (List.take_prefix _ _).filter _
        _ = (keys.map fun k => (k, popcountNat (Nat.xor q k))).filter
              (fun c => c.2 == d) := insertionSort_filter _ _
    · rw [hmain]
      simp [List.length_take, List.length_insertionSort]
    · intro he
      cases he
  | none =>
    have hmain := lshash_query_eq_none gl q keys hq hk hlen
    refine ⟨?_, ?_, ?_, ?_, ?_⟩
    · rw [hmain]
      exact List.pairwise_map.mpr (hsorted.imp (fun h => h))
    · intro c hc
      rw [hmain] at hc
      obtain ⟨c', hc', rfl⟩ := List.mem_map.mp hc
      obtain ⟨k, _, rfl⟩ :=
        List.mem_map.mp ((List.mem_insertionSort distLE).mp hc')
      exact ⟨rfl, rfl⟩
    · intro d
      rw [hmain, strip_extra_map, insertionSort_filter]
    · rw [hmain]
      simp [List.length_insertionSort]
    · intro _
      rw [hmain, strip_extra_map]
      exact List.perm_insertionSort distLE _

/-- Witness for the amended C8: query 0 over keys `[2, 1, 3]` with
`numResults = 2` yields `[(2, 2, 1), (1, 1, 1)]` — sorted ascending by
distance with the tie `2 ≺ 1` kept in enumeration order, truncated to two
entries, extra data resolved by the lookup. -/
theorem C8_query_amended_witness :
    List.Pairwise (fun a b => a.2.2 ≤ b.2.2)
        (lshash_query_hamming (fun (k : Nat) (_ : Nat) => k) 500 2 1 0 [2, 1, 3]
          (some 2))
    ∧ lshash_query_hamming (fun (k : Nat) (_ : Nat) => k) 500 2 1 0 [2, 1, 3]
        (some 2) = [(2, 2, 1), (1, 1, 1)] :=
  ⟨(C8_query_amended (fun k _ => k) 0 [2, 1, 3] (some 2) (by decide) (by decide)
      (by decide) (by decide)).1,
   by decide⟩

/-! ## Claim theorems: server accept loop -/

/-- Claim C9.  The request loop handles each connection independently of
the ones before it (so a well-formed connection after a failed one is
served exactly as in isolation); a first message outside the three literal
commands gets no reply and the connection is closed; a handler that raises
has its exception swallowed by the loop's `try`/`except`, the connection
is still closed, and the loop goes on. -/
theorem C9_loop_robust {α : Type} (hc hm : α → HandlerRun) :
    (∀ (conns : List (String × α)) (c : String × α),
        server_loop hc hm (conns ++ [c])
          = server_loop hc hm conns ++ [loopHandleConnection hc hm c.1 c.2])
    ∧ (∀ (first : String) (payload : α),
        first ∉ ["cuda_hamming_dist_in_compressed_domain", "multi_iteration",
          "reset"] →
        first ≠ "" →
        (loopHandleConnection hc hm first payload).sent = []
        ∧ (loopHandleConnection hc hm first payload).closed = true)
    ∧ (∀ (payload : α) (e : String), (hc payload).exn = some e →
        loopHandleConnection hc hm "cuda_hamming_dist_in_compressed_domain"
          payload = { sent := (hc payload).sent, closed := true })
    ∧ (∀ (payload : α) (e : String), (hm payload).exn = some e →
        loopHandleConnection hc hm "multi_iteration" payload
          = { sent := (hm payload).sent, closed := true }) := by
  refine ⟨?_, ?_, ?_, ?_⟩
  · intro conns c
    simp [server_loop]
  · intro first payload hmem hne
    have h1 : first ≠ "cuda_hamming_dist_in_compressed_domain" := by
      intro h
      exact hmem (by simp [h])
    have h2 : first ≠ "multi_iteration" := by
      intro h
      exact hmem (by simp [h])
    simp [loopHandleConnection, hne, h1, h2]
  · intro payload e _
    simp [loopHandleConnection]
  · intro payload e _
    simp [loopHandleConnection]

/-- Witness for C9: with handlers that send `"next"` then raise
`ValueError`, a bogus connection yields no reply and the following `reset`
connection is processed independently. -/
theorem C9_loop_robust_witness :
    (server_loop (fun _ : Nat => HandlerRun.mk ["next"] (some "ValueError"))
        (fun _ : Nat => HandlerRun.mk ["next"] (some "ValueError"))
        ([("bogus", 0)] ++ [("reset", 0)])
      = server_loop (fun _ : Nat => HandlerRun.mk ["next"] (some "ValueError"))
          (fun _ : Nat => HandlerRun.mk ["next"] (some "ValueError"))
          [("bogus", 0)]
        ++ [loopHandleConnection
              (fun _ : Nat => HandlerRun.mk ["next"] (some "ValueError"))
              (fun _ : Nat => HandlerRun.mk ["next"] (some "ValueError"))
              "reset" 0])
    ∧ (loopHandleConnection
        (fun _ : Nat => HandlerRun.mk ["next"] (some "ValueError"))
        (fun _ : Nat => HandlerRun.mk ["next"] (some "ValueError"))
        "bogus" 0).sent = []
    ∧ (loopHandleConnection
        (fun _ : Nat => HandlerRun.mk ["next"] (some "ValueError"))
        (fun _ : Nat => HandlerRun.mk ["next"] (some "ValueError"))
        "bogus" 0).closed = true
    ∧ loopHandleConnection
        (fun _ : Nat => HandlerRun.mk ["next"] (some "ValueError"))
        (fun _ : Nat => HandlerRun.mk ["next"] (some "ValueError"))
        "multi_iteration" 0 = { sent := ["next"], closed := true } :=
  ⟨(C9_loop_robust _ _).1 [("bogus", 0)] ("reset", 0),
   ((C9_loop_robust _ _).2.1 "bogus" 0 (by decide) (by decide)).1,
   ((C9_loop_robust _ _).2.1 "bogus" 0 (by decide) (by decide)).2,
   (C9_loop_robust _ _).2.2.2 0 "ValueError" rfl⟩
